import Mathlib

/-!
Verification of the stock-scanner pipeline (db.py, analysis_engine.py,
kis_client.py, main.py, config.py) against its natural-language
specification.  The Python code is shallowly embedded as executable Lean
definitions:

* SQL tables become lists of row structures; `INSERT OR REPLACE` becomes a
  keyed upsert on the list, `GROUP BY` / `MIN` / `MAX` become filters and
  folds over the list.
* `YYYYMMDD` date strings are modelled as integer day numbers: for valid
  dates, lexicographic comparison of the fixed-width strings agrees with
  chronological order, and the `strptime`/`timedelta(days=7)`/`strftime`
  round-trip is addition of 7.
* Python floats are modelled as rationals, `round(x, 2)` as rounding to
  hundredths with ties to even; pandas `NaN` cells become `Option` values.
* `sorted` / `list.sort` / `sort_values` (all stable) are modelled by
  `List.insertionSort`, which is likewise stable.
-/

namespace StockScanner

/-- Round a rational to the nearest integer, ties to even
(the rounding mode of Python round()). -/
def roundHalfEven (q : ℚ) : ℤ :=
  let f : ℤ := Int.fdiv q.num q.den
  let r : ℚ := q - (f : ℚ)
  if r < 1/2 then f
  else if 1/2 < r then f + 1
  else if f % 2 = 0 then f else f + 1

/-- Python round(x, 2): round to two decimal places, ties to even. -/
def round2 (q : ℚ) : ℚ := (roundHalfEven (q * 100) : ℚ) / 100

/-- Deduplicate a list keeping the first occurrence of each element,
in first-occurrence order — the iteration order of a Python dict keyed by
the elements. -/
def dedupFirst {α : Type} [DecidableEq α] : List α → List α
  | [] => []
  | x :: t => x :: (dedupFirst t).filter (fun y => y ≠ x)

theorem mem_dedupFirst {α : Type} [DecidableEq α] {a : α} :
    ∀ {l : List α}, a ∈ dedupFirst l ↔ a ∈ l := by
  intro l
  induction l with
  | nil => simp [dedupFirst]
  | cons x t ih =>
    by_cases hax : a = x
    · subst hax; simp [dedupFirst]
    · simp [dedupFirst, hax, List.mem_filter, ih]

/-- min over a SQL group: foldl of min, seeded with the first element. -/
theorem foldl_min_le_iff {ds : List ℤ} :
    ∀ {d x : ℤ}, ds.foldl min d ≤ x ↔ ∃ y ∈ d :: ds, y ≤ x := by
  induction ds with
  | nil => intro d x; simp
  | cons a t ih =>
    intro d x
    show t.foldl min (min d a) ≤ x ↔ _
    rw [ih]
    constructor
    · rintro ⟨y, hy, hyx⟩
      rcases List.mem_cons.mp hy with hy | hy
      · subst hy
        rcases min_le_iff.mp hyx with h | h
        · exact ⟨d, by simp, h⟩
        · exact ⟨a, by simp, h⟩
      · exact ⟨y, by simp [hy], hyx⟩
    · rintro ⟨y, hy, hyx⟩
      rcases List.mem_cons.mp hy with hy | hy
      · exact ⟨min d a, by simp, le_trans (min_le_left d a) (hy ▸ hyx)⟩
      · rcases List.mem_cons.mp hy with hy | hy
        · exact ⟨min d a, by simp, le_trans (min_le_right d a) (hy ▸ hyx)⟩
        · exact ⟨y, by simp [hy], hyx⟩

/-- max over a SQL group: foldl of max, seeded with the first element. -/
theorem le_foldl_max_iff {ds : List ℤ} :
    ∀ {d x : ℤ}, x ≤ ds.foldl max d ↔ ∃ y ∈ d :: ds, x ≤ y := by
  induction ds with
  | nil => intro d x; simp
  | cons a t ih =>
    intro d x
    show x ≤ t.foldl max (max d a) ↔ _
    rw [ih]
    constructor
    · rintro ⟨y, hy, hyx⟩
      rcases List.mem_cons.mp hy with hy | hy
      · subst hy
        rcases le_max_iff.mp hyx with h | h
        · exact ⟨d, by simp, h⟩
        · exact ⟨a, by simp, h⟩
      · exact ⟨y, by simp [hy], hyx⟩
    · rintro ⟨y, hy, hyx⟩
      rcases List.mem_cons.mp hy with hy | hy
      · exact ⟨max d a, by simp, le_trans (hy ▸ hyx) (le_max_left d a)⟩
      · rcases List.mem_cons.mp hy with hy | hy
        · exact ⟨max d a, by simp, le_trans (hy ▸ hyx) (le_max_right d a)⟩
        · exact ⟨y, by simp [hy], hyx⟩

/-! ## db.py — daily_prices table and its queries -/

/-- One row of the daily_prices table (날짜, 종목코드, 종목명, 시장, 시가,
고가, 저가, 종가, 거래량).  종가 is NOT NULL in the schema; the other price
fields are nullable.  Dates are integer day numbers (see the header). -/
structure DailyRow where
  date : ℤ
  code : String
  name : String
  market : String
  openP : Option ℤ
  highP : Option ℤ
  lowP : Option ℤ
  close : ℤ
  volume : Option ℤ
deriving DecidableEq

/-- SQLite INSERT OR REPLACE on the UNIQUE(날짜, 종목코드) key: the
conflicting row (if any) is deleted and the new row appended. -/
def upsertRow (s : List DailyRow) (r : DailyRow) : List DailyRow :=
  (s.filter (fun q => !(q.date = r.date && q.code = r.code))) ++ [r]

/-- DatabaseManager.save_daily_prices: executemany of INSERT OR REPLACE,
one upsert per record, in record order. -/
def saveDailyPrices (s : List DailyRow) (records : List DailyRow) : List DailyRow :=
  records.foldl upsertRow s

/-- All stored dates of one 종목코드 (the group the SQL GROUP BY forms). -/
def codeDates (s : List DailyRow) (c : String) : List ℤ :=
  (s.filter (fun r => r.code = c)).map (fun r => r.date)

/-- DatabaseManager.get_cached_stock_codes: codes whose global MIN(날짜) is
at most the start threshold and whose MAX(날짜) is at least the end
threshold; ±7-day tolerance, dropped when it would make the threshold
window degenerate (end_threshold <= start_threshold). -/
def getCachedStockCodes (s : List DailyRow) (startDate endDate : ℤ) : List String :=
  let startThreshold := if endDate - 7 ≤ startDate + 7 then startDate else startDate + 7
  let endThreshold := if endDate - 7 ≤ startDate + 7 then endDate else endDate - 7
  (dedupFirst (s.map (fun r => r.code))).filter (fun c =>
    match codeDates s c with
    | [] => false
    | d :: ds => decide (ds.foldl min d ≤ startThreshold)
        && decide (endThreshold ≤ ds.foldl max d))

/-- The WHERE clause of get_prices: 날짜 BETWEEN start AND end, and the
market filter when one is given (Python treats an empty market string as
no filter). -/
def marketOk (m : Option String) (r : DailyRow) : Bool :=
  match m with
  | none => true
  | some v => if v = "" then true else r.market = v

def rowsInRange (store : List DailyRow) (s e : ℤ) (m : Option String) : List DailyRow :=
  store.filter (fun r => decide (s ≤ r.date) && decide (r.date ≤ e) && marketOk m r)

/-- The (날짜, 종가) pairs collected for one 종목코드, in row order. -/
def daysFor (rows : List DailyRow) (c : String) : List (ℤ × ℤ) :=
  (rows.filter (fun r => r.code = c)).map (fun r => (r.date, r.close))

/-- Python tuple comparison on (날짜, 종가) pairs, as used by sorted(). -/
def pairLe (a b : ℤ × ℤ) : Prop := a.1 < b.1 ∨ (a.1 = b.1 ∧ a.2 ≤ b.2)

instance : DecidableRel pairLe := fun a b => by
  unfold pairLe; infer_instance

instance : IsTotal (ℤ × ℤ) pairLe where
  total a b := by
    unfold pairLe
    rcases lt_trichotomy a.1 b.1 with h | h | h
    · exact Or.inl (Or.inl h)
    · rcases le_total a.2 b.2 with h2 | h2
      · exact Or.inl (Or.inr ⟨h, h2⟩)
      · exact Or.inr (Or.inr ⟨h.symm, h2⟩)
    · exact Or.inr (Or.inl h)

instance : IsTrans (ℤ × ℤ) pairLe where
  trans a b c hab hbc := by
    unfold pairLe at *
    rcases hab with h1 | ⟨h1, h1b⟩ <;> rcases hbc with h2 | ⟨h2, h2b⟩
    · exact Or.inl (lt_trans h1 h2)
    · exact Or.inl (h2 ▸ h1)
    · exact Or.inl (h1 ▸ h2)
    · exact Or.inr ⟨h1.trans h2, h1b.trans h2b⟩

/-- A derived period-return record (one element of get_prices output). -/
structure ReturnRec where
  code : String
  name : String
  market : String
  startPrice : ℤ
  endPrice : ℤ
  ret : ℚ
deriving DecidableEq

/-- The per-code body of get_prices: sort the (날짜, 종가) pairs, skip
groups with fewer than 2 rows, skip a zero (falsy) start price, otherwise
build the record with the rounded percent return.  종목명/시장 come from
the first row of the group, as in the Python dict. -/
def processCode (rows : List DailyRow) (c : String) : Option ReturnRec :=
  match rows.find? (fun r => r.code = c) with
  | none => none
  | some r0 =>
    match List.insertionSort pairLe (daysFor rows c) with
    | d0 :: d1 :: rest =>
        if d0.2 = 0 then none
        else
          let ep := (List.getLastD (d1 :: rest) d0).2
          some { code := c, name := r0.name, market := r0.market,
                 startPrice := d0.2, endPrice := ep,
                 ret := round2 (((ep : ℚ) - (d0.2 : ℚ)) / (d0.2 : ℚ) * 100) }
    | _ => none

/-- Descending comparison on 수익률(%), as used by results.sort(reverse=True). -/
def retGe (a b : ReturnRec) : Prop := b.ret ≤ a.ret

instance : DecidableRel retGe := fun a b => by
  unfold retGe; infer_instance

instance : IsTotal ReturnRec retGe where
  total a b := le_total b.ret a.ret

instance : IsTrans ReturnRec retGe where
  trans _ _ _ hab hbc := le_trans hbc hab

/-- DatabaseManager.get_prices: load the rows in range, group by 종목코드
in first-occurrence order, build the per-code return records, sort them
descending by 수익률(%), and truncate to top_n when top_n is a truthy
(nonzero) value. -/
def getPrices (store : List DailyRow) (s e : ℤ) (m : Option String)
    (topN : Option ℕ) : List ReturnRec :=
  let rows := rowsInRange store s e m
  let results := (dedupFirst (rows.map (fun r => r.code))).filterMap (processCode rows)
  let sortedRes := List.insertionSort retGe results
  match topN with
  | some n => if n ≠ 0 then sortedRes.take n else sortedRes
  | none => sortedRes

/-- The daily_prices UNIQUE(날짜, 종목코드) constraint, as a predicate on
the modelled table: no two distinct rows share a (date, code) key. -/
def keysUnique (store : List DailyRow) : Prop :=
  List.Pairwise (fun a b => ¬ (a.date = b.date ∧ a.code = b.code)) store

/-! ## analysis_engine.py — golden-cross detector -/

/-- One intraday candle as check_golden_cross sees it: the datetime column
(HHMMSS) and the close column; a close of none models a pandas NaN
(pd.to_numeric with errors="coerce"). -/
structure Candle where
  time : String
  close : Option ℚ
deriving DecidableEq

/-- pandas rolling(window=w).mean() at index i: defined only when the
window is full (i + 1 ≥ w, i in bounds) and none of its w cells is NaN. -/
def maAt (w : ℕ) (closes : List (Option ℚ)) (i : ℕ) : Option ℚ :=
  if w ≤ i + 1 ∧ i < closes.length then
    if ((closes.drop (i + 1 - w)).take w).all (fun c => c.isSome) then
      some ((((closes.drop (i + 1 - w)).take w).filterMap id).sum / (w : ℚ))
    else none
  else none

/-- The verdict dict returned by check_golden_cross. -/
structure CrossResult where
  signal : Bool
  time : Option String
  close : Option ℚ
  ma3 : Option ℚ
  ma5 : Option ℚ
  reason : String
deriving DecidableEq

/-- check_golden_cross: fewer than 6 candles is insufficient data;
otherwise compare MA3/MA5 at the last candle (index n-1) and the
second-to-last candle (index n-2).  Signal iff previously MA3 ≤ MA5 and
now MA3 > MA5.  The reported ma3/ma5 fields are rounded to 2 decimals;
the comparisons use the unrounded values, as in the Python. -/
def checkGoldenCross (df : List Candle) : CrossResult :=
  if df.length < 6 then
    { signal := false, time := none, close := none, ma3 := none, ma5 := none,
      reason := "데이터 부족 (최소 6개 캔들 필요)" }
  else
    let closes := df.map (fun c => c.close)
    let n := df.length
    let latest := df.getLastD { time := "", close := none }
    let ma3L := maAt 3 closes (n - 1)
    let ma5L := maAt 5 closes (n - 1)
    let ma3P := maAt 3 closes (n - 2)
    let ma5P := maAt 5 closes (n - 2)
    let base : CrossResult :=
      { signal := false, time := some latest.time, close := latest.close,
        ma3 := ma3L.map round2, ma5 := ma5L.map round2, reason := "" }
    match ma3L, ma5L with
    | some a3, some a5 =>
      match ma3P, ma5P with
      | some p3, some p5 =>
        if p3 ≤ p5 ∧ a5 < a3 then
          { base with signal := true, reason := "MA3이 MA5를 상향 돌파 (골든크로스)" }
        else if ¬ (p3 ≤ p5) then
          { base with reason := "이전 캔들에서 이미 MA3 > MA5" }
        else
          { base with reason := "MA3이 아직 MA5 하회" }
      | _, _ => { base with reason := "이전 캔들 이동평균 계산 불가" }
    | _, _ => { base with reason := "이동평균 계산 불가" }

/-! ## main.py — reentry diff engine -/

/-- One row of a ranking snapshot DataFrame (종목코드, 종목명, 수익률(%),
and the optional ROE / 영업이익률 columns). -/
structure SnapRow where
  code : String
  name : String
  ret : ℚ
  roe : Option ℚ
  opMargin : Option ℚ
deriving DecidableEq

/-- One row of the reentry result DataFrame. -/
structure ReentryRow where
  code : String
  name : String
  prevRank : ℕ
  prevRet : ℚ
  currRank : ℕ
  currRet : ℚ
  roe : Option ℚ
  opMargin : Option ℚ
deriving DecidableEq

def REENTRY_LOWER : ℕ := 51
def REENTRY_UPPER : ℕ := 100

/-- Pair the rows of a snapshot slice with consecutive ranks starting at
s (the range(start, start + len) rank columns in find_reentry_stocks). -/
def ranked (s : ℕ) : List SnapRow → List (ℕ × SnapRow)
  | [] => []
  | x :: t => (s, x) :: ranked (s + 1) t

/-- Ascending comparison on 현재_순위, as used by sort_values. -/
def currRankLe (a b : ReentryRow) : Prop := a.currRank ≤ b.currRank

instance : DecidableRel currRankLe := fun a b => by
  unfold currRankLe; infer_instance

instance : IsTotal ReentryRow currRankLe where
  total a b := Nat.le_total a.currRank b.currRank

instance : IsTrans ReentryRow currRankLe where
  trans _ _ _ hab hbc := le_trans hab hbc

/-- One result row of find_reentry_stocks for a reentered code: the first
matching row of the previous band and the first matching row of the
current ranking. -/
def reentryBuild (prevBottom currRanked : List (ℕ × SnapRow))
    (c : String) : Option ReentryRow :=
  match prevBottom.find? (fun p => p.2.code = c),
        currRanked.find? (fun q => q.2.code = c) with
  | some p, some q =>
      some { code := c, name := q.2.name, prevRank := p.1, prevRet := p.2.ret,
             currRank := q.1, currRet := q.2.ret,
             roe := q.2.roe, opMargin := q.2.opMargin }
  | _, _ => none

/-- find_reentry_stocks: with fewer than REENTRY_LOWER previous rows the
result is empty; otherwise take the previous band iloc[50:100] ranked
51.., rank the current snapshot 1.., intersect the code sets, build one
row per reentered code (first matching row on either side), and stably
sort ascending by 현재_순위.  The Python iterates the intersection as a
set; here it is iterated in previous-band order, which the final sort
makes immaterial whenever current ranks are distinct. -/
def findReentryStocks (prevDf currDf : List SnapRow) : List ReentryRow :=
  if prevDf.length < REENTRY_LOWER then []
  else
    let prevBottom := ranked REENTRY_LOWER
      ((prevDf.drop (REENTRY_LOWER - 1)).take (REENTRY_UPPER - (REENTRY_LOWER - 1)))
    let currRanked := ranked 1 currDf
    let codes := dedupFirst ((prevBottom.map (fun p => p.2.code)).filter
      (fun c => (currRanked.find? (fun q => q.2.code = c)).isSome))
    List.insertionSort currRankLe (codes.filterMap (reentryBuild prevBottom currRanked))

/-! ## kis_client.py — token validity and the fetch coordinator -/

/-- The credential slots of KISClient (access_token, token_expired_at);
time is modelled in integer seconds. -/
structure TokenState where
  accessToken : Option String
  tokenExpiredAt : Option ℤ
deriving DecidableEq

/-- KISClient._is_token_valid at time now: both slots must be populated
and now must be strictly before the expiry minus the 1-minute buffer. -/
def isTokenValid (st : TokenState) (now : ℤ) : Bool :=
  match st.accessToken, st.tokenExpiredAt with
  | some _, some expiry => decide (now < expiry - 60)
  | _, _ => false

/-- One entry of the downloaded stock list: 종목코드 and 종목명. -/
structure StockItem where
  code : String
  name : String
deriving DecidableEq

/-- The outcome of _get_period_price for one work item: the call raised,
or it returned a (시작가, 종료가) pair whose components may be missing. -/
inductive FetchOutcome where
  | err : FetchOutcome
  | prices : Option ℤ → Option ℤ → FetchOutcome
deriving DecidableEq

/-- One collected result record of get_top_growth_stocks. -/
structure GrowthRec where
  code : String
  name : String
  startPrice : ℤ
  endPrice : ℤ
  ret : ℚ
deriving DecidableEq

/-- The shared mutable state of one batch: the lock-guarded completion
counter and the collected results list. -/
structure BatchState where
  completed : ℕ
  results : List GrowthRec
deriving DecidableEq

/-- The body of _fetch_one for one work item: every path (exception,
missing data, zero start price, success) increments the completion
counter exactly once; only a success contributes a result. -/
def fetchOne (st : BatchState) (item : StockItem × FetchOutcome) : BatchState :=
  match item.2 with
  | .err => { completed := st.completed + 1, results := st.results }
  | .prices s0 e0 =>
    match s0, e0 with
    | some sp, some ep =>
        if sp = 0 then { completed := st.completed + 1, results := st.results }
        else
          let rec0 : GrowthRec :=
            { code := item.1.code, name := item.1.name,
              startPrice := sp, endPrice := ep,
              ret := round2 (((ep : ℚ) - (sp : ℚ)) / (sp : ℚ) * 100) }
          { completed := st.completed + 1, results := st.results ++ [rec0] }
    | _, _ => { completed := st.completed + 1, results := st.results }

/-- Descending comparison on 수익률(%) for the final sort. -/
def growthGe (a b : GrowthRec) : Prop := b.ret ≤ a.ret

instance : DecidableRel growthGe := fun a b => by
  unfold growthGe; infer_instance

/-- The batch loop of get_top_growth_stocks: the work items are processed
with per-item fault isolation (the arrival order of as_completed is
modelled as the given list order — the claims proved below are counts,
which do not depend on it), then the collected results are sorted
descending by return and truncated to top_n when given. -/
def getTopGrowthStocks (items : List (StockItem × FetchOutcome))
    (topN : Option ℕ) : BatchState × List GrowthRec :=
  let st := items.foldl fetchOne { completed := 0, results := [] }
  let sortedRes := List.insertionSort growthGe st.results
  (st, match topN with | some n => sortedRes.take n | none => sortedRes)

/-! ## db.py — watchlist -/

/-- One row of the watchlist table. -/
structure WatchEntry where
  userId : ℤ
  platform : String
  code : String
  name : String
  addedDate : String
deriving DecidableEq

/-- DatabaseManager.add_watchlist: INSERT OR IGNORE on the
UNIQUE(user_id, platform, 종목코드) key, reporting cursor.rowcount > 0,
i.e. whether a row was actually inserted.  today stands for
datetime.date.today().isoformat(), passed explicitly. -/
def addWatchlist (wl : List WatchEntry) (userId : ℤ)
    (stockCode stockName platform today : String) : Bool × List WatchEntry :=
  if wl.any (fun e0 => e0.userId = userId && e0.platform = platform
      && e0.code = stockCode) then
    (false, wl)
  else
    (true, wl ++ [{ userId := userId, platform := platform, code := stockCode,
                    name := stockName, addedDate := today }])

/-! ## Concrete fixtures used by witness theorems -/

def mkRow (d : ℤ) (c nm mk : String) (cl : ℤ) : DailyRow :=
  { date := d, code := c, name := nm, market := mk,
    openP := none, highP := none, lowP := none, close := cl, volume := none }

def demoStore : List DailyRow :=
  [ mkRow 100 "000001" "AlphaCo" "코스피" 10000,
    mkRow 130 "000001" "AlphaCo" "코스피" 15000,
    mkRow 100 "000002" "BetaCo" "코스닥" 20000,
    mkRow 130 "000002" "BetaCo" "코스닥" 18000,
    mkRow 115 "000003" "GammaCo" "코스피" 0,
    mkRow 120 "000003" "GammaCo" "코스피" 5000 ]

def mkCandle (t : String) (c : ℚ) : Candle := { time := t, close := some c }

/-- The 6-candle series of the spec example: five flat closes then a drop. -/
def descCross : List Candle :=
  [ mkCandle "100000" 10, mkCandle "103000" 10, mkCandle "110000" 10,
    mkCandle "113000" 10, mkCandle "120000" 10, mkCandle "123000" 6 ]

/-- Five flat closes then a rise: an actual MA3/MA5 upward crossover. -/
def upCross : List Candle :=
  [ mkCandle "100000" 10, mkCandle "103000" 10, mkCandle "110000" 10,
    mkCandle "113000" 10, mkCandle "120000" 10, mkCandle "123000" 14 ]

def mkSnap (i : ℕ) : SnapRow :=
  { code := toString i, name := toString i, ret := 0, roe := none, opMargin := none }

def demoPrev : List SnapRow := (List.range 60).map mkSnap

def demoCurr : List SnapRow := [mkSnap 55, mkSnap 99]

def demoItems : List (StockItem × FetchOutcome) :=
  [ (⟨"005930", "삼성전자"⟩, FetchOutcome.prices (some 100) (some 150)),
    (⟨"000660", "SK하이닉스"⟩, FetchOutcome.err),
    (⟨"035420", "NAVER"⟩, FetchOutcome.prices (some 200) (some 180)) ]

/-! ## Helper lemmas -/

/-- Membership predicate on the UNIQUE(날짜, 종목코드) key. -/
def keyHit (records : List DailyRow) (q : DailyRow) : Bool :=
  records.any (fun r => r.date = q.date && r.code = q.code)

theorem mem_foldl_upsertRow {q : DailyRow} :
    ∀ {records s : List DailyRow}, q ∈ records.foldl upsertRow s →
      q ∈ s ∨ q ∈ records := by
  intro records
  induction records with
  | nil => intro s h; exact Or.inl h
  | cons r t ih =>
    intro s h
    rcases ih h with h1 | h1
    · unfold upsertRow at h1
      rcases List.mem_append.mp h1 with h2 | h2
      · exact Or.inl (List.mem_of_mem_filter h2)
      · simp at h2
        exact Or.inr (by simp [h2])
    · exact Or.inr (List.mem_cons_of_mem r h1)

theorem foldl_upsertRow_eq :
    ∀ (records s : List DailyRow),
      records.foldl upsertRow s =
        s.filter (fun q => !keyHit records q) ++ records.foldl upsertRow [] := by
  intro records
  induction records with
  | nil => intro s; simp [keyHit]
  | cons r t ih =>
    intro s
    show t.foldl upsertRow (upsertRow s r) = _
    rw [ih (upsertRow s r)]
    have hsingle : t.foldl upsertRow [r] =
        List.filter (fun q => !keyHit t q) [r] ++ t.foldl upsertRow [] := by
      simpa using ih [r]
    have hup : (upsertRow s r).filter (fun q => !keyHit t q) =
        s.filter (fun q => !keyHit (r :: t) q) ++ List.filter (fun q => !keyHit t q) [r] := by
      unfold upsertRow
      rw [List.filter_append, List.filter_filter]
      congr 1
      apply List.filter_congr
      intro q _
      have hd : decide (q.date = r.date) = decide (r.date = q.date) :=
        decide_eq_decide.mpr eq_comm
      have hc : decide (q.code = r.code) = decide (r.code = q.code) :=
        decide_eq_decide.mpr eq_comm
      simp [keyHit, List.any_cons, hd, hc, Bool.and_comm]
    calc (upsertRow s r).filter (fun q => !keyHit t q) ++ t.foldl upsertRow []
        = s.filter (fun q => !keyHit (r :: t) q) ++
            (List.filter (fun q => !keyHit t q) [r] ++ t.foldl upsertRow []) := by
          rw [hup, List.append_assoc]
      _ = s.filter (fun q => !keyHit (r :: t) q) ++ (r :: t).foldl upsertRow [] := by
          rw [← hsingle]; rfl

theorem keyHit_of_mem {q : DailyRow} {records : List DailyRow} (h : q ∈ records) :
    keyHit records q = true := by
  unfold keyHit
  exact List.any_eq_true.mpr ⟨q, h, by simp⟩

/-- C6 core: replaying the same records leaves the store unchanged. -/
theorem saveDailyPrices_replay (s records : List DailyRow) :
    saveDailyPrices (saveDailyPrices s records) records = saveDailyPrices s records := by
  unfold saveDailyPrices
  rw [foldl_upsertRow_eq records (records.foldl upsertRow s),
      foldl_upsertRow_eq records s]
  rw [List.filter_append]
  have h2 : (records.foldl upsertRow []).filter (fun q => !keyHit records q) = [] := by
    rw [List.filter_eq_nil_iff]
    intro q hq
    have hmem : q ∈ records := by
      rcases mem_foldl_upsertRow hq with h | h
      · exact absurd h (List.not_mem_nil q)
      · exact h
    simp [keyHit_of_mem hmem]
  rw [h2, List.append_nil, List.filter_filter]
  congr 1
  apply List.filter_congr
  intro q _
  cases h : keyHit records q <;> simp [h]

theorem fetchOne_completed (st : BatchState) (item : StockItem × FetchOutcome) :
    (fetchOne st item).completed = st.completed + 1 := by
  rcases item with ⟨si, o⟩
  cases o with
  | err => rfl
  | prices s0 e0 =>
    cases s0 with
    | none => rfl
    | some sp =>
      cases e0 with
      | none => rfl
      | some ep =>
        by_cases h : sp = 0 <;> simp [fetchOne, h]

theorem foldl_fetchOne_completed :
    ∀ (items : List (StockItem × FetchOutcome)) (st : BatchState),
      (items.foldl fetchOne st).completed = st.completed + items.length := by
  intro items
  induction items with
  | nil => intro st; simp
  | cons it t ih =>
    intro st
    show (t.foldl fetchOne (fetchOne st it)).completed = _
    rw [ih, fetchOne_completed]
    simp only [List.length_cons]
    omega

/-- A work item whose per-instrument fetch either raises, or yields a
complete price pair with a nonzero start price. -/
def goodItem (item : StockItem × FetchOutcome) : Prop :=
  item.2 = FetchOutcome.err ∨
    ∃ sp ep : ℤ, item.2 = FetchOutcome.prices (some sp) (some ep) ∧ sp ≠ 0

theorem foldl_fetchOne_results :
    ∀ (items : List (StockItem × FetchOutcome)) (st : BatchState),
      (∀ it ∈ items, goodItem it) →
      (items.foldl fetchOne st).results.length
          + (items.filter (fun it => it.2 = FetchOutcome.err)).length
        = st.results.length + items.length := by
  intro items
  induction items with
  | nil => intro st _; simp
  | cons it t ih =>
    intro st hgood
    have hit := hgood it (List.mem_cons_self it t)
    have htail : ∀ it0 ∈ t, goodItem it0 :=
      fun it0 h0 => hgood it0 (List.mem_cons_of_mem it h0)
    show (t.foldl fetchOne (fetchOne st it)).results.length + _ = _
    rcases hit with herr | ⟨sp, ep, hpr, hsp⟩
    · have hres : (fetchOne st it).results = st.results := by
        rcases it with ⟨si, o⟩
        cases o with
        | err => rfl
        | prices s0 e0 => simp at herr
      have hfil : ((it :: t).filter (fun it0 => it0.2 = FetchOutcome.err)).length
          = (t.filter (fun it0 => it0.2 = FetchOutcome.err)).length + 1 := by
        simp [List.filter_cons, herr]
      rw [hfil]
      have := ih (fetchOne st it) htail
      rw [hres] at this
      simp only [List.length_cons]
      omega
    · have hres : (fetchOne st it).results.length = st.results.length + 1 := by
        rcases it with ⟨si, o⟩
        simp only at hpr
        rw [hpr]
        simp [fetchOne, hsp]
      have hfil : ((it :: t).filter (fun it0 => it0.2 = FetchOutcome.err)).length
          = (t.filter (fun it0 => it0.2 = FetchOutcome.err)).length := by
        have : ¬ (it.2 = FetchOutcome.err) := by rw [hpr]; intro hc; cases hc
        simp [List.filter_cons, this]
      rw [hfil]
      have := ih (fetchOne st it) htail
      rw [hres] at this
      simp only [List.length_cons]
      omega

theorem mem_cached_filter (s : List DailyRow) (st et : ℤ) (c : String) :
    (c ∈ (dedupFirst (s.map (fun r => r.code))).filter (fun c0 =>
      match codeDates s c0 with
      | [] => false
      | d :: ds => decide (ds.foldl min d ≤ st) && decide (et ≤ ds.foldl max d)) ↔
    ((∃ d ∈ codeDates s c, d ≤ st) ∧ (∃ d ∈ codeDates s c, et ≤ d))) := by
  rw [List.mem_filter]
  cases hcd : codeDates s c with
  | nil => simp [hcd]
  | cons d ds =>
    have hne : s.filter (fun r => r.code = c) ≠ [] := by
      intro h0
      rw [codeDates, h0] at hcd
      simp at hcd
    obtain ⟨r, hr⟩ := List.exists_mem_of_ne_nil _ hne
    have hrs := List.mem_filter.mp hr
    have hrc : r.code = c := by simpa using hrs.2
    have hmem : c ∈ dedupFirst (s.map (fun r0 => r0.code)) :=
      mem_dedupFirst.mpr (List.mem_map.mpr ⟨r, hrs.1, hrc⟩)
    have hminiff := @foldl_min_le_iff ds d st
    have hmaxiff := @le_foldl_max_iff ds d et
    simp only [hcd, hmem, true_and, Bool.and_eq_true, decide_eq_true_eq]
    rw [hminiff, hmaxiff]

theorem maAt_map_some (w : ℕ) (vals : List ℚ) (i : ℕ) (hw : w ≤ i + 1)
    (hi : i < vals.length) :
    maAt w (vals.map some) i
      = some (((vals.drop (i + 1 - w)).take w).sum / (w : ℚ)) := by
  unfold maAt
  rw [if_pos ⟨hw, by simpa using hi⟩]
  have hwin : ((vals.map some).drop (i + 1 - w)).take w
      = ((vals.drop (i + 1 - w)).take w).map some := by
    rw [List.map_take, List.map_drop]
  rw [hwin]
  have hall : (((vals.drop (i + 1 - w)).take w).map some).all
      (fun c => c.isSome) = true := by
    rw [List.all_eq_true]
    intro c hc
    rcases List.mem_map.mp hc with ⟨a, _, rfl⟩
    rfl
  rw [if_pos hall, List.filterMap_map]
  have hid : (Option.some ∘ fun a : ℚ => a) = fun a : ℚ => some a := rfl
  show some (
    (List.filterMap (id ∘ some) ((vals.drop (i + 1 - w)).take w)).sum / (w : ℚ)) = _
  rw [show (id ∘ some : ℚ → Option ℚ) = some from rfl, List.filterMap_some]

theorem maAt_isSome (w : ℕ) (closes : List (Option ℚ)) (i : ℕ) (hw : w ≤ i + 1)
    (hi : i < closes.length) (hall : ∀ c ∈ closes, c.isSome = true) :
    ∃ q, maAt w closes i = some q := by
  unfold maAt
  rw [if_pos ⟨hw, hi⟩]
  have h : ((closes.drop (i + 1 - w)).take w).all (fun c => c.isSome) = true := by
    rw [List.all_eq_true]
    intro c hc
    exact hall c (((List.take_sublist _ _).trans (List.drop_sublist _ _)).mem hc)
  rw [if_pos h]
  exact ⟨_, rfl⟩

/-- The shape of check_golden_cross on a window where all four moving
averages are defined. -/
theorem checkGoldenCross_eq_branches (df : List Candle)
    (h6 : ¬ df.length < 6) {a3 a5 p3 p5 : ℚ}
    (h3 : maAt 3 (df.map (fun c => c.close)) (df.length - 1) = some a3)
    (h5 : maAt 5 (df.map (fun c => c.close)) (df.length - 1) = some a5)
    (hp3 : maAt 3 (df.map (fun c => c.close)) (df.length - 2) = some p3)
    (hp5 : maAt 5 (df.map (fun c => c.close)) (df.length - 2) = some p5) :
    checkGoldenCross df =
      { signal := decide (p3 ≤ p5) && decide (a5 < a3),
        time := some (df.getLastD ⟨"", none⟩).time,
        close := (df.getLastD ⟨"", none⟩).close,
        ma3 := some (round2 a3), ma5 := some (round2 a5),
        reason := if p3 ≤ p5 ∧ a5 < a3 then "MA3이 MA5를 상향 돌파 (골든크로스)"
                  else if ¬ (p3 ≤ p5) then "이전 캔들에서 이미 MA3 > MA5"
                  else "MA3이 아직 MA5 하회" } := by
  unfold checkGoldenCross
  rw [if_neg h6]
  simp only [h3, h5, hp3, hp5]
  by_cases h1 : p3 ≤ p5 ∧ a5 < a3
  · rw [if_pos h1, if_pos h1]
    simp [h1.1, h1.2]
  · rw [if_neg h1, if_neg h1]
    by_cases h2 : ¬ (p3 ≤ p5)
    · rw [if_pos h2, if_pos h2]
      simp [h2]
    · rw [if_neg h2, if_neg h2]
      have hp : p3 ≤ p5 := not_not.mp h2
      have ha : ¬ (a5 < a3) := fun hc => h1 ⟨hp, hc⟩
      simp [ha]

theorem maAt_concrete (w : ℕ) (vals : List ℚ) (i : ℕ) (hw : w ≤ i + 1)
    (hi : i < vals.length) (win : List ℚ)
    (hwin : (vals.drop (i + 1 - w)).take w = win) (v : ℚ)
    (hv : win.sum / (w : ℚ) = v) :
    maAt w (vals.map some) i = some v := by
  rw [maAt_map_some w vals i hw hi, hwin, hv]

/-- Full evaluation of check_golden_cross on the flat-then-drop series:
previous MA3 = MA5 = 10, last MA3 = 26/3 < MA5 = 46/5, so no signal. -/
theorem checkGoldenCross_descCross_eval :
    (checkGoldenCross descCross).signal = false ∧
    (checkGoldenCross descCross).reason = "MA3이 아직 MA5 하회" := by
  have h3 : maAt 3 (descCross.map fun c => c.close) (descCross.length - 1)
      = some (26/3 : ℚ) :=
    maAt_concrete 3 [10, 10, 10, 10, 10, 6] 5 (by omega) (by simp) [10, 10, 6] rfl
      (26/3) (by norm_num [List.sum_cons])
  have h5 : maAt 5 (descCross.map fun c => c.close) (descCross.length - 1)
      = some (46/5 : ℚ) :=
    maAt_concrete 5 [10, 10, 10, 10, 10, 6] 5 (by omega) (by simp)
      [10, 10, 10, 10, 6] rfl (46/5) (by norm_num [List.sum_cons])
  have hp3 : maAt 3 (descCross.map fun c => c.close) (descCross.length - 2)
      = some (10 : ℚ) :=
    maAt_concrete 3 [10, 10, 10, 10, 10, 6] 4 (by omega) (by simp) [10, 10, 10] rfl
      10 (by norm_num [List.sum_cons])
  have hp5 : maAt 5 (descCross.map fun c => c.close) (descCross.length - 2)
      = some (10 : ℚ) :=
    maAt_concrete 5 [10, 10, 10, 10, 10, 6] 4 (by omega) (by simp)
      [10, 10, 10, 10, 10] rfl 10 (by norm_num [List.sum_cons])
  have heq := checkGoldenCross_eq_branches descCross (by decide) h3 h5 hp3 hp5
  have ha : ¬ ((46/5 : ℚ) < 26/3) := by norm_num
  have hp : (10 : ℚ) ≤ 10 := le_refl _
  rw [heq]
  constructor
  · show (decide ((10:ℚ) ≤ 10) && decide ((46/5:ℚ) < 26/3)) = false
    rw [decide_eq_false ha, Bool.and_false]
  · show (if (10:ℚ) ≤ 10 ∧ (46/5:ℚ) < 26/3 then "MA3이 MA5를 상향 돌파 (골든크로스)"
      else if ¬ ((10:ℚ) ≤ 10) then "이전 캔들에서 이미 MA3 > MA5"
      else "MA3이 아직 MA5 하회") = "MA3이 아직 MA5 하회"
    rw [if_neg (fun hcon => ha hcon.2), if_neg (not_not_intro hp)]

/-- Full evaluation of check_golden_cross on the flat-then-rise series:
previous MA3 = MA5 = 10, last MA3 = 34/3 > MA5 = 54/5, so the crossover
fires. -/
theorem checkGoldenCross_upCross_eval :
    (checkGoldenCross upCross).signal = true ∧
    (checkGoldenCross upCross).reason = "MA3이 MA5를 상향 돌파 (골든크로스)" := by
  have h3 : maAt 3 (upCross.map fun c => c.close) (upCross.length - 1)
      = some (34/3 : ℚ) :=
    maAt_concrete 3 [10, 10, 10, 10, 10, 14] 5 (by omega) (by simp) [10, 10, 14] rfl
      (34/3) (by norm_num [List.sum_cons])
  have h5 : maAt 5 (upCross.map fun c => c.close) (upCross.length - 1)
      = some (54/5 : ℚ) :=
    maAt_concrete 5 [10, 10, 10, 10, 10, 14] 5 (by omega) (by simp)
      [10, 10, 10, 10, 14] rfl (54/5) (by norm_num [List.sum_cons])
  have hp3 : maAt 3 (upCross.map fun c => c.close) (upCross.length - 2)
      = some (10 : ℚ) :=
    maAt_concrete 3 [10, 10, 10, 10, 10, 14] 4 (by omega) (by simp) [10, 10, 10] rfl
      10 (by norm_num [List.sum_cons])
  have hp5 : maAt 5 (upCross.map fun c => c.close) (upCross.length - 2)
      = some (10 : ℚ) :=
    maAt_concrete 5 [10, 10, 10, 10, 10, 14] 4 (by omega) (by simp)
      [10, 10, 10, 10, 10] rfl 10 (by norm_num [List.sum_cons])
  have heq := checkGoldenCross_eq_branches upCross (by decide) h3 h5 hp3 hp5
  have ha : (54/5 : ℚ) < 34/3 := by norm_num
  have hp : (10 : ℚ) ≤ 10 := le_refl _
  rw [heq]
  constructor
  · show (decide ((10:ℚ) ≤ 10) && decide ((54/5:ℚ) < 34/3)) = true
    rw [decide_eq_true hp, decide_eq_true ha]
    rfl
  · show (if (10:ℚ) ≤ 10 ∧ (54/5:ℚ) < 34/3 then "MA3이 MA5를 상향 돌파 (골든크로스)"
      else if ¬ ((10:ℚ) ≤ 10) then "이전 캔들에서 이미 MA3 > MA5"
      else "MA3이 아직 MA5 하회") = "MA3이 MA5를 상향 돌파 (골든크로스)"
    rw [if_pos ⟨hp, ha⟩]

theorem length_eq_five {α : Type} {l : List α} (h : l.length = 5) :
    ∃ a b c d e, l = [a, b, c, d, e] := by
  rcases l with _ | ⟨a, _ | ⟨b, _ | ⟨c, _ | ⟨d, _ | ⟨e, _ | ⟨f, t⟩⟩⟩⟩⟩⟩
  · simp at h
  · simp at h
  · simp at h
  · simp at h
  · simp at h
  · exact ⟨a, b, c, d, e, rfl⟩
  · simp at h

theorem ranked_append :
    ∀ (l1 l2 : List SnapRow) (s : ℕ),
      ranked s (l1 ++ l2) = ranked s l1 ++ ranked (s + l1.length) l2 := by
  intro l1
  induction l1 with
  | nil => intro l2 s; simp [ranked]
  | cons x t ih =>
    intro l2 s
    show (s, x) :: ranked (s + 1) (t ++ l2) = _
    rw [ih l2 (s + 1)]
    have harg : s + 1 + t.length = s + (x :: t).length := by
      simp only [List.length_cons]
      omega
    rw [harg]
    rfl

theorem mem_ranked_bounds {p : ℕ × SnapRow} :
    ∀ {l : List SnapRow} {s : ℕ}, p ∈ ranked s l → s ≤ p.1 ∧ p.1 < s + l.length := by
  intro l
  induction l with
  | nil => intro s h; cases h
  | cons x t ih =>
    intro s h
    rcases List.mem_cons.mp h with h1 | h1
    · rw [h1]; simp
    · have := ih h1
      simp only [List.length_cons]
      omega

theorem mem_ranked_snd {p : ℕ × SnapRow} :
    ∀ {l : List SnapRow} {s : ℕ}, p ∈ ranked s l → p.2 ∈ l := by
  intro l
  induction l with
  | nil => intro s h; cases h
  | cons x t ih =>
    intro s h
    rcases List.mem_cons.mp h with h1 | h1
    · rw [h1]; exact List.mem_cons_self x t
    · exact List.mem_cons_of_mem x (ih h1)

/-- Positions 51..100 of the full previous ranking are exactly the
members of the ranked band iloc[50:100]. -/
theorem mem_ranked_band (prevDf : List SnapRow) (h51 : 51 ≤ prevDf.length)
    (p : ℕ × SnapRow) :
    p ∈ ranked 51 ((prevDf.drop 50).take 50) ↔
      (p ∈ ranked 1 prevDf ∧ 51 ≤ p.1 ∧ p.1 ≤ 100) := by
  have hsplit : prevDf = prevDf.take 50 ++
      ((prevDf.drop 50).take 50 ++ (prevDf.drop 50).drop 50) := by
    rw [List.take_append_drop, List.take_append_drop]
  have hlen50 : (prevDf.take 50).length = 50 := by
    rw [List.length_take]; omega
  have hr1 : ranked 1 prevDf =
      ranked 1 (prevDf.take 50) ++
        (ranked 51 ((prevDf.drop 50).take 50) ++
          ranked (51 + ((prevDf.drop 50).take 50).length)
            ((prevDf.drop 50).drop 50)) := by
    conv =>
      lhs
      rw [hsplit]
    rw [ranked_append, ranked_append, hlen50]
  constructor
  · intro h
    have hb := mem_ranked_bounds h
    have hmlen : ((prevDf.drop 50).take 50).length ≤ 50 := by
      rw [List.length_take]; omega
    refine ⟨?_, by omega, by omega⟩
    rw [hr1]
    exact List.mem_append.mpr (Or.inr (List.mem_append.mpr (Or.inl h)))
  · rintro ⟨hmem, hlo, hhi⟩
    rw [hr1] at hmem
    rcases List.mem_append.mp hmem with h1 | h1
    · have hb := mem_ranked_bounds h1
      rw [hlen50] at hb
      omega
    rcases List.mem_append.mp h1 with h2 | h2
    · exact h2
    · have hb := mem_ranked_bounds h2
      have hdl : ((prevDf.drop 50).drop 50).length = prevDf.length - 100 := by
        simp only [List.length_drop]
        omega
      have hml : ((prevDf.drop 50).take 50).length
          = min 50 (prevDf.length - 50) := by
        rw [List.length_take, List.length_drop]
      rw [hml, hdl] at hb
      omega

theorem reentryBuild_eq_some {B C : List (ℕ × SnapRow)} {c : String}
    {r : ReentryRow} (h : reentryBuild B C c = some r) :
    ∃ p q, B.find? (fun p0 => p0.2.code = c) = some p ∧
      C.find? (fun q0 => q0.2.code = c) = some q ∧
      r = { code := c, name := q.2.name, prevRank := p.1, prevRet := p.2.ret,
            currRank := q.1, currRet := q.2.ret,
            roe := q.2.roe, opMargin := q.2.opMargin } := by
  unfold reentryBuild at h
  cases hfp : B.find? (fun p0 => p0.2.code = c) with
  | none => rw [hfp] at h; simp at h
  | some p =>
    cases hfq : C.find? (fun q0 => q0.2.code = c) with
    | none => rw [hfp, hfq] at h; simp at h
    | some q =>
      rw [hfp, hfq] at h
      exact ⟨p, q, rfl, rfl, (Option.some.inj h).symm⟩

theorem pairLe_refl (a : ℤ × ℤ) : pairLe a a := Or.inr ⟨rfl, le_refl _⟩

theorem pairLe_fst {a b : ℤ × ℤ} (h : pairLe a b) : a.1 ≤ b.1 := by
  rcases h with h | ⟨h, _⟩
  · exact le_of_lt h
  · exact le_of_eq h

theorem getLastD_mem {α : Type} : ∀ (l : List α) (a : α), l.getLastD a ∈ a :: l := by
  intro l
  induction l with
  | nil => intro a; simp
  | cons b t ih =>
    intro a
    rw [List.getLastD_cons]
    exact List.mem_cons_of_mem a (ih b)

theorem sorted_head_min {d0 : ℤ × ℤ} {rest : List (ℤ × ℤ)}
    (h : List.Sorted pairLe (d0 :: rest)) :
    ∀ x ∈ d0 :: rest, pairLe d0 x := by
  intro x hx
  rcases List.mem_cons.mp hx with h1 | h1
  · subst h1; exact pairLe_refl x
  · exact List.rel_of_sorted_cons h x h1

theorem sorted_le_getLastD :
    ∀ (l : List (ℤ × ℤ)) (a : ℤ × ℤ), List.Sorted pairLe (a :: l) →
      ∀ x ∈ a :: l, pairLe x (l.getLastD a) := by
  intro l
  induction l with
  | nil =>
    intro a _ x hx
    rcases List.mem_cons.mp hx with h1 | h1
    · subst h1; exact pairLe_refl x
    · cases h1
  | cons b t ih =>
    intro a hs x hx
    rw [List.getLastD_cons]
    have hs1 : List.Sorted pairLe (b :: t) := hs.of_cons
    rcases List.mem_cons.mp hx with h1 | h1
    · subst h1
      have hab : pairLe x b := List.rel_of_sorted_cons hs b (List.mem_cons_self b t)
      have hbl : pairLe b (t.getLastD b) := ih b hs1 b (List.mem_cons_self b t)
      exact IsTrans.trans _ _ _ hab hbl
    · exact ih b hs1 x h1

theorem eq_of_pairwise_date_ne {l : List DailyRow}
    (hp : List.Pairwise (fun a b => a.date ≠ b.date) l) :
    ∀ {a b : DailyRow}, a ∈ l → b ∈ l → a.date = b.date → a = b := by
  induction l with
  | nil => intro a b ha _ _; cases ha
  | cons x t ih =>
    intro a b ha hb hd
    rcases List.pairwise_cons.mp hp with ⟨hx, ht⟩
    rcases List.mem_cons.mp ha with h1 | h1
    · rcases List.mem_cons.mp hb with h2 | h2
      · rw [h1, h2]
      · subst h1; exact absurd hd (hx b h2)
    · rcases List.mem_cons.mp hb with h2 | h2
      · subst h2; exact absurd hd.symm (hx a h1)
      · exact ih ht h1 h2 hd

theorem two_le_length_of_mem {α : Type} {l : List α} {a b : α}
    (ha : a ∈ l) (hb : b ∈ l) (hne : a ≠ b) : 2 ≤ l.length := by
  induction l with
  | nil => cases ha
  | cons x t _ =>
    rcases List.mem_cons.mp ha with h1 | h1
    · rcases List.mem_cons.mp hb with h2 | h2
      · exact absurd (h1.trans h2.symm) hne
      · have := List.length_pos.mpr (List.ne_nil_of_mem h2)
        simp only [List.length_cons]
        omega
    · have := List.length_pos.mpr (List.ne_nil_of_mem h1)
      simp only [List.length_cons]
      omega

theorem mem_daysFor {rows : List DailyRow} {c : String} {x : ℤ × ℤ} :
    x ∈ daysFor rows c ↔ ∃ r ∈ rows, r.code = c ∧ (r.date, r.close) = x := by
  unfold daysFor
  rw [List.mem_map]
  constructor
  · rintro ⟨r, hr, hrx⟩
    have hrf := List.mem_filter.mp hr
    exact ⟨r, hrf.1, by simpa using hrf.2, hrx⟩
  · rintro ⟨r, hr, hrc, hrx⟩
    exact ⟨r, List.mem_filter.mpr ⟨hr, by simp [hrc]⟩, hrx⟩

/-- The per-code body of get_prices, fully characterized when it
produces a record: the record's prices are the closes of a
minimum-dated and a maximum-dated row of the group, the start close is
nonzero (falsy check), the group has at least two rows, and the return
is the rounded percent change. -/
theorem processCode_some_spec {rows : List DailyRow} {c : String} {rec : ReturnRec}
    (h : processCode rows c = some rec) :
    rec.code = c ∧
    2 ≤ (rows.filter (fun r => r.code = c)).length ∧
    ∃ rs ∈ rows.filter (fun r => r.code = c),
      ∃ re ∈ rows.filter (fun r => r.code = c),
        (∀ r ∈ rows.filter (fun r => r.code = c), rs.date ≤ r.date) ∧
        (∀ r ∈ rows.filter (fun r => r.code = c), r.date ≤ re.date) ∧
        rec.startPrice = rs.close ∧ rec.endPrice = re.close ∧
        rec.startPrice ≠ 0 ∧
        rec.ret = round2 (((rec.endPrice : ℚ) - (rec.startPrice : ℚ))
          / (rec.startPrice : ℚ) * 100) := by
  unfold processCode at h
  cases hf : rows.find? (fun r => r.code = c) with
  | none => rw [hf] at h; simp at h
  | some r0 =>
    rw [hf] at h
    cases hs : List.insertionSort pairLe (daysFor rows c) with
    | nil => rw [hs] at h; simp at h
    | cons d0 tail =>
      cases tail with
      | nil => rw [hs] at h; simp at h
      | cons d1 rest =>
        rw [hs] at h
        dsimp only at h
        by_cases hz : d0.2 = 0
        · rw [if_pos hz] at h; simp at h
        · rw [if_neg hz] at h
          have hrec := (Option.some.inj h).symm
          have hsorted : List.Sorted pairLe (d0 :: d1 :: rest) := by
            have h0 := List.sorted_insertionSort pairLe (daysFor rows c)
            rw [hs] at h0; exact h0
          have hperm : (d0 :: d1 :: rest).Perm (daysFor rows c) := by
            have h0 := List.perm_insertionSort pairLe (daysFor rows c)
            rw [hs] at h0; exact h0
          have hlen : 2 ≤ (rows.filter (fun r => r.code = c)).length := by
            have h1 : (daysFor rows c).length
                = (rows.filter (fun r => r.code = c)).length := by
              unfold daysFor; rw [List.length_map]
            have h2 := hperm.length_eq
            simp only [List.length_cons] at h2
            omega
          have hd0 : d0 ∈ daysFor rows c :=
            hperm.mem_iff.mp (List.mem_cons_self d0 _)
          rcases mem_daysFor.mp hd0 with ⟨rs, hrs_rows, hrs_code, hrs_eq⟩
          have hrs_mem : rs ∈ rows.filter (fun r => r.code = c) :=
            List.mem_filter.mpr ⟨hrs_rows, by simp [hrs_code]⟩
          have hlast : (d1 :: rest).getLastD d0 ∈ daysFor rows c :=
            hperm.mem_iff.mp (getLastD_mem _ _)
          rcases mem_daysFor.mp hlast with ⟨re, hre_rows, hre_code, hre_eq⟩
          have hre_mem : re ∈ rows.filter (fun r => r.code = c) :=
            List.mem_filter.mpr ⟨hre_rows, by simp [hre_code]⟩
          have hmin : ∀ r ∈ rows.filter (fun r => r.code = c), rs.date ≤ r.date := by
            intro r hr
            have hrcode : r.code = c := by simpa using (List.mem_filter.mp hr).2
            have hxd : (r.date, r.close) ∈ daysFor rows c :=
              mem_daysFor.mpr ⟨r, (List.mem_filter.mp hr).1, hrcode, rfl⟩
            have hle := pairLe_fst (sorted_head_min hsorted _ (hperm.mem_iff.mpr hxd))
            have hrsd : rs.date = d0.1 := by rw [← hrs_eq]
            rw [hrsd]
            exact hle
          have hmax : ∀ r ∈ rows.filter (fun r => r.code = c), r.date ≤ re.date := by
            intro r hr
            have hrcode : r.code = c := by simpa using (List.mem_filter.mp hr).2
            have hxd : (r.date, r.close) ∈ daysFor rows c :=
              mem_daysFor.mpr ⟨r, (List.mem_filter.mp hr).1, hrcode, rfl⟩
            have hle := pairLe_fst
              (sorted_le_getLastD (d1 :: rest) d0 hsorted _ (hperm.mem_iff.mpr hxd))
            have hred : re.date = ((d1 :: rest).getLastD d0).1 := by rw [← hre_eq]
            rw [hred]
            exact hle
          refine ⟨by rw [hrec], hlen, rs, hrs_mem, re, hre_mem, hmin, hmax,
            ?_, ?_, ?_, ?_⟩
          · rw [hrec]
            show d0.2 = rs.close
            rw [← hrs_eq]
          · rw [hrec]
            show ((d1 :: rest).getLastD d0).2 = re.close
            rw [← hre_eq]
          · rw [hrec]; exact hz
          · rw [hrec]

/-- The per-code body of get_prices produces a record exactly when the
group has two rows with distinct dates and the minimum-dated row has a
nonzero close (assuming per-group date uniqueness, which the table's
UNIQUE(날짜, 종목코드) key guarantees). -/
theorem processCode_isSome_iff {rows : List DailyRow} {c : String}
    (hpd : List.Pairwise (fun a b => a.date ≠ b.date)
      (rows.filter (fun r => r.code = c))) :
    (∃ rec, processCode rows c = some rec) ↔
      ((∃ r1 ∈ rows.filter (fun r => r.code = c),
          ∃ r2 ∈ rows.filter (fun r => r.code = c), r1.date ≠ r2.date) ∧
       (∃ rm ∈ rows.filter (fun r => r.code = c),
          (∀ r ∈ rows.filter (fun r => r.code = c), rm.date ≤ r.date) ∧
          rm.close ≠ 0)) := by
  constructor
  · rintro ⟨rec, hrec⟩
    rcases processCode_some_spec hrec with
      ⟨_, hlen, rs, hrs, re, hre, hmin, hmax, hsp, hep, hnz, hret⟩
    constructor
    · rcases hfl : rows.filter (fun r => r.code = c) with _ | ⟨x, _ | ⟨y, t⟩⟩
      · rw [hfl] at hlen; simp at hlen
      · rw [hfl] at hlen; simp at hlen
      · rw [hfl] at hpd
        have hxy : x.date ≠ y.date :=
          (List.pairwise_cons.mp hpd).1 y (List.mem_cons_self y t)
        exact ⟨x, by rw [hfl]; simp, y, by rw [hfl]; simp, hxy⟩
    · refine ⟨rs, hrs, hmin, ?_⟩
      rw [← hsp]
      exact hnz
  · rintro ⟨⟨r1, hr1, r2, hr2, hne⟩, ⟨rm, hrm, hrm_min, hrm_nz⟩⟩
    have hne12 : r1 ≠ r2 := fun hcon => hne (by rw [hcon])
    have hlen2 : 2 ≤ (rows.filter (fun r => r.code = c)).length :=
      two_le_length_of_mem hr1 hr2 hne12
    have hslen : 2 ≤ (List.insertionSort pairLe (daysFor rows c)).length := by
      rw [(List.perm_insertionSort pairLe (daysFor rows c)).length_eq]
      unfold daysFor
      rw [List.length_map]
      exact hlen2
    rcases hs : List.insertionSort pairLe (daysFor rows c) with _ | ⟨d0, _ | ⟨d1, rest⟩⟩
    · rw [hs] at hslen; simp at hslen
    · rw [hs] at hslen; simp at hslen
    · have hr1code : r1.code = c := by simpa using (List.mem_filter.mp hr1).2
      have hfindS : (rows.find? (fun r => r.code = c)).isSome = true :=
        List.find?_isSome.mpr ⟨r1, (List.mem_filter.mp hr1).1, by simp [hr1code]⟩
      obtain ⟨r0, hf⟩ := Option.isSome_iff_exists.mp hfindS
      have hsorted : List.Sorted pairLe (d0 :: d1 :: rest) := by
        have h0 := List.sorted_insertionSort pairLe (daysFor rows c)
        rw [hs] at h0; exact h0
      have hperm : (d0 :: d1 :: rest).Perm (daysFor rows c) := by
        have h0 := List.perm_insertionSort pairLe (daysFor rows c)
        rw [hs] at h0; exact h0
      have hd0 : d0 ∈ daysFor rows c :=
        hperm.mem_iff.mp (List.mem_cons_self _ _)
      rcases mem_daysFor.mp hd0 with ⟨rd, hrd_rows, hrd_code, hrd_eq⟩
      have hrd_mem : rd ∈ rows.filter (fun r => r.code = c) :=
        List.mem_filter.mpr ⟨hrd_rows, by simp [hrd_code]⟩
      have hd0min : d0.1 ≤ rm.date := by
        have hrmcode : rm.code = c := by simpa using (List.mem_filter.mp hrm).2
        have hxd : (rm.date, rm.close) ∈ daysFor rows c :=
          mem_daysFor.mpr ⟨rm, (List.mem_filter.mp hrm).1, hrmcode, rfl⟩
        exact pairLe_fst (sorted_head_min hsorted _ (hperm.mem_iff.mpr hxd))
      have hrd_date : rd.date = rm.date := by
        have h1 : rm.date ≤ rd.date := hrm_min rd hrd_mem
        have h2 : rd.date = d0.1 := by rw [← hrd_eq]
        omega
      have hrd_rm : rd = rm := eq_of_pairwise_date_ne hpd hrd_mem hrm hrd_date
      have hz : ¬ (d0.2 = 0) := by
        have h1 : d0.2 = rd.close := by rw [← hrd_eq]
        rw [h1, hrd_rm]
        exact hrm_nz
      have heval : processCode rows c
          = some { code := c, name := r0.name, market := r0.market,
                   startPrice := d0.2,
                   endPrice := ((d1 :: rest).getLastD d0).2,
                   ret := round2 (((((d1 :: rest).getLastD d0).2 : ℚ)
                     - (d0.2 : ℚ)) / (d0.2 : ℚ) * 100) } := by
        unfold processCode
        rw [hf, hs]
        dsimp only
        rw [if_neg hz]
      exact ⟨_, heval⟩

/-- Pairwise date distinctness of each per-code group, inherited from
the table key. -/
theorem pairwise_dates {store : List DailyRow} (hu : keysUnique store)
    (s e : ℤ) (m : Option String) (c : String) :
    List.Pairwise (fun a b => a.date ≠ b.date)
      ((rowsInRange store s e m).filter (fun r => r.code = c)) := by
  have h1 : List.Pairwise (fun a b : DailyRow => ¬ (a.date = b.date ∧ a.code = b.code))
      ((rowsInRange store s e m).filter (fun r => r.code = c)) :=
    List.Pairwise.sublist
      ((List.filter_sublist _).trans (List.filter_sublist store)) hu
  refine h1.imp_of_mem ?_
  intro a b ha hb hK hd
  have hac : a.code = c := by simpa using (List.mem_filter.mp ha).2
  have hbc : b.code = c := by simpa using (List.mem_filter.mp hb).2
  exact hK ⟨hd, by rw [hac, hbc]⟩

theorem mem_getPrices_none {store : List DailyRow} {s e : ℤ}
    {m : Option String} {rec : ReturnRec} :
    rec ∈ getPrices store s e m none ↔
      ∃ c0 ∈ dedupFirst ((rowsInRange store s e m).map (fun r => r.code)),
        processCode (rowsInRange store s e m) c0 = some rec := by
  show rec ∈ List.insertionSort retGe
      ((dedupFirst ((rowsInRange store s e m).map (fun r => r.code))).filterMap
        (processCode (rowsInRange store s e m))) ↔ _
  rw [List.mem_insertionSort, List.mem_filterMap]

/-! ## Claim theorems -/

/-- C9: on any candle series of at least 6 candles whose closes are all
numeric (non-NaN), check_golden_cross never reaches the two
moving-average-undefined branches: the reason is exactly one of
crossover-detected, already-above, or still-below, and the reported ma3
and ma5 are non-null. -/
theorem check_golden_cross_no_undefined (df : List Candle)
    (h6 : 6 ≤ df.length) (hsome : ∀ c ∈ df, c.close.isSome = true) :
    ((checkGoldenCross df).reason = "MA3이 MA5를 상향 돌파 (골든크로스)" ∨
     (checkGoldenCross df).reason = "이전 캔들에서 이미 MA3 > MA5" ∨
     (checkGoldenCross df).reason = "MA3이 아직 MA5 하회") ∧
    (checkGoldenCross df).ma3.isSome = true ∧
    (checkGoldenCross df).ma5.isSome = true ∧
    (checkGoldenCross df).reason ≠ "이동평균 계산 불가" ∧
    (checkGoldenCross df).reason ≠ "이전 캔들 이동평균 계산 불가" := by
  have hallc : ∀ c0 ∈ df.map (fun c => c.close), c0.isSome = true := by
    intro c0 hc0
    rcases List.mem_map.mp hc0 with ⟨c, hc, rfl⟩
    exact hsome c hc
  have hlen : (df.map (fun c => c.close)).length = df.length := List.length_map _ _
  obtain ⟨a3, h3⟩ := maAt_isSome 3 (df.map (fun c => c.close)) (df.length - 1)
    (by omega) (by rw [hlen]; omega) hallc
  obtain ⟨a5, h5⟩ := maAt_isSome 5 (df.map (fun c => c.close)) (df.length - 1)
    (by omega) (by rw [hlen]; omega) hallc
  obtain ⟨p3, hp3⟩ := maAt_isSome 3 (df.map (fun c => c.close)) (df.length - 2)
    (by omega) (by rw [hlen]; omega) hallc
  obtain ⟨p5, hp5⟩ := maAt_isSome 5 (df.map (fun c => c.close)) (df.length - 2)
    (by omega) (by rw [hlen]; omega) hallc
  have heq := checkGoldenCross_eq_branches df (by omega) h3 h5 hp3 hp5
  have hor : (checkGoldenCross df).reason = "MA3이 MA5를 상향 돌파 (골든크로스)" ∨
      (checkGoldenCross df).reason = "이전 캔들에서 이미 MA3 > MA5" ∨
      (checkGoldenCross df).reason = "MA3이 아직 MA5 하회" := by
    rw [heq]
    by_cases h1 : p3 ≤ p5 ∧ a5 < a3
    · exact Or.inl (by simp [h1])
    · by_cases h2 : ¬ (p3 ≤ p5)
      · exact Or.inr (Or.inl (by simp [h1, h2]))
      · exact Or.inr (Or.inr (by simp [h1, h2]))
  refine ⟨hor, by rw [heq]; rfl, by rw [heq]; rfl, ?_, ?_⟩
  · rcases hor with h | h | h <;> rw [h] <;> decide
  · rcases hor with h | h | h <;> rw [h] <;> decide

theorem check_golden_cross_no_undefined_witness :
    (6 ≤ descCross.length ∧ ∀ c ∈ descCross, c.close.isSome = true) ∧
    (checkGoldenCross descCross).ma3.isSome = true ∧
    (checkGoldenCross descCross).ma5.isSome = true :=
  ⟨⟨by decide, by decide⟩,
    (check_golden_cross_no_undefined descCross (by decide) (by decide)).2.1,
    (check_golden_cross_no_undefined descCross (by decide) (by decide)).2.2.1⟩

/-- C3 counterexample: on the closing series [10, 10, 10, 10, 10, 6] the
detector does NOT fire — MA3 drops below MA5 at the last candle, so
check_golden_cross returns signal = false with the still-below reason,
contradicting the claimed signal = true / crossover reason. -/
theorem check_golden_cross_flat_drop_no_signal :
    (checkGoldenCross descCross).signal = false ∧
    (checkGoldenCross descCross).reason = "MA3이 아직 MA5 하회" :=
  checkGoldenCross_descCross_eval

/-- C3 (amended): on [10, 10, 10, 10, 10, 6] check_golden_cross returns
signal = false with the still-below reason; on the rising series
[10, 10, 10, 10, 10, 14] it returns signal = true with the
crossover-detected reason; and on every monotonically descending
(non-increasing) numeric series of at least 6 candles it returns
signal = false. -/
theorem check_golden_cross_amended :
    ((checkGoldenCross descCross).signal = false ∧
     (checkGoldenCross descCross).reason = "MA3이 아직 MA5 하회") ∧
    ((checkGoldenCross upCross).signal = true ∧
     (checkGoldenCross upCross).reason = "MA3이 MA5를 상향 돌파 (골든크로스)") ∧
    (∀ (df : List Candle) (vals : List ℚ),
      df.map (fun c => c.close) = vals.map some →
      6 ≤ df.length →
      List.Pairwise (fun a b => b ≤ a) vals →
      (checkGoldenCross df).signal = false) := by
  refine ⟨checkGoldenCross_descCross_eval, checkGoldenCross_upCross_eval, ?_⟩
  intro df vals hmap h6 hmono
  have hvlen : vals.length = df.length := by
    have hlm := congrArg List.length hmap
    simpa using hlm.symm
  have h3 : maAt 3 (df.map (fun c => c.close)) (df.length - 1)
      = some (((vals.drop (df.length - 3)).take 3).sum / (3 : ℚ)) := by
    rw [hmap]
    have h0 := maAt_map_some 3 vals (df.length - 1) (by omega) (by omega)
    have e1 : df.length - 1 + 1 - 3 = df.length - 3 := by omega
    rw [e1] at h0
    exact h0
  have h5 : maAt 5 (df.map (fun c => c.close)) (df.length - 1)
      = some (((vals.drop (df.length - 5)).take 5).sum / (5 : ℚ)) := by
    rw [hmap]
    have h0 := maAt_map_some 5 vals (df.length - 1) (by omega) (by omega)
    have e1 : df.length - 1 + 1 - 5 = df.length - 5 := by omega
    rw [e1] at h0
    exact h0
  have hp3 : maAt 3 (df.map (fun c => c.close)) (df.length - 2)
      = some (((vals.drop (df.length - 4)).take 3).sum / (3 : ℚ)) := by
    rw [hmap]
    have h0 := maAt_map_some 3 vals (df.length - 2) (by omega) (by omega)
    have e1 : df.length - 2 + 1 - 3 = df.length - 4 := by omega
    rw [e1] at h0
    exact h0
  have hp5 : maAt 5 (df.map (fun c => c.close)) (df.length - 2)
      = some (((vals.drop (df.length - 6)).take 5).sum / (5 : ℚ)) := by
    rw [hmap]
    have h0 := maAt_map_some 5 vals (df.length - 2) (by omega) (by omega)
    have e1 : df.length - 2 + 1 - 5 = df.length - 6 := by omega
    rw [e1] at h0
    exact h0
  have heq := checkGoldenCross_eq_branches df (by omega) h3 h5 hp3 hp5
  have hl5len : (vals.drop (df.length - 5)).length = 5 := by
    rw [List.length_drop]; omega
  obtain ⟨v0, v1, v2, v3, v4, hl5⟩ := length_eq_five hl5len
  have hdd : vals.drop (df.length - 3) = [v2, v3, v4] := by
    have hsplit : vals.drop (df.length - 3) = (vals.drop (df.length - 5)).drop 2 := by
      rw [List.drop_drop]; congr 1; omega
    rw [hsplit, hl5]; rfl
  have hsub : List.Pairwise (fun a b => b ≤ a) [v0, v1, v2, v3, v4] := by
    have h0 := List.Pairwise.sublist (List.drop_sublist (df.length - 5) vals) hmono
    rw [hl5] at h0
    exact h0
  rcases List.pairwise_cons.mp hsub with ⟨hv0, hsub1⟩
  rcases List.pairwise_cons.mp hsub1 with ⟨hv1, _⟩
  have h20 := hv0 v2 (by simp)
  have h30 := hv0 v3 (by simp)
  have h40 := hv0 v4 (by simp)
  have h21 := hv1 v2 (by simp)
  have h31 := hv1 v3 (by simp)
  have h41 := hv1 v4 (by simp)
  have hsum3 : ((vals.drop (df.length - 3)).take 3).sum = v2 + (v3 + v4) := by
    rw [hdd]; simp [List.sum_cons]
  have hsum5 : ((vals.drop (df.length - 5)).take 5).sum
      = v0 + (v1 + (v2 + (v3 + v4))) := by
    rw [List.take_of_length_le (le_of_eq hl5len), hl5]; simp [List.sum_cons]
  have hle : ((vals.drop (df.length - 3)).take 3).sum / (3 : ℚ)
      ≤ ((vals.drop (df.length - 5)).take 5).sum / (5 : ℚ) := by
    rw [hsum3, hsum5]
    linarith
  have hfalse : decide (((vals.drop (df.length - 5)).take 5).sum / (5 : ℚ)
      < ((vals.drop (df.length - 3)).take 3).sum / (3 : ℚ)) = false :=
    decide_eq_false (not_lt.mpr hle)
  rw [heq]
  simp only [hfalse, Bool.and_false]

theorem check_golden_cross_amended_witness :
    (descCross.map (fun c => c.close)
        = ([10, 10, 10, 10, 10, 6] : List ℚ).map some ∧
      6 ≤ descCross.length ∧
      List.Pairwise (fun a b : ℚ => b ≤ a) [10, 10, 10, 10, 10, 6]) ∧
    (checkGoldenCross descCross).signal = false :=
  ⟨⟨by decide, by decide, by decide⟩,
    check_golden_cross_amended.2.2 descCross [10, 10, 10, 10, 10, 6]
      (by decide) (by decide) (by decide)⟩

/-- C5: for a batch of N work items of which the M items raising an
exception are dropped and the rest yield valid nonzero-start price pairs,
get_top_growth_stocks collects exactly N - M result records and the
shared completion counter reaches exactly N; no single exception aborts
the batch. -/
theorem get_top_growth_stocks_batch (items : List (StockItem × FetchOutcome))
    (topN : Option ℕ) (hgood : ∀ it ∈ items, goodItem it) :
    (getTopGrowthStocks items topN).1.completed = items.length ∧
    (getTopGrowthStocks items topN).1.results.length
        = items.length - (items.filter (fun it => it.2 = FetchOutcome.err)).length := by
  have hc := foldl_fetchOne_completed items ⟨0, []⟩
  have hr := foldl_fetchOne_results items ⟨0, []⟩ hgood
  constructor
  · show (items.foldl fetchOne ⟨0, []⟩).completed = items.length
    simpa using hc
  · show (items.foldl fetchOne ⟨0, []⟩).results.length = _
    have hr2 : (items.foldl fetchOne ⟨0, []⟩).results.length
        + (items.filter (fun it => it.2 = FetchOutcome.err)).length
        = items.length := by simpa using hr
    omega

theorem get_top_growth_stocks_batch_witness :
    (∀ it ∈ demoItems, goodItem it) ∧
    (getTopGrowthStocks demoItems none).1.completed = 3 ∧
    (getTopGrowthStocks demoItems none).1.results.length = 2 := by
  have hg : ∀ it ∈ demoItems, goodItem it := by
    intro it hit
    simp only [demoItems, List.mem_cons, List.not_mem_nil, or_false] at hit
    rcases hit with h | h | h <;> rw [h]
    · exact Or.inr ⟨100, 150, rfl, by decide⟩
    · exact Or.inl rfl
    · exact Or.inr ⟨200, 180, rfl, by decide⟩
  refine ⟨hg, (get_top_growth_stocks_batch demoItems none hg).1, ?_⟩
  have h2 := (get_top_growth_stocks_batch demoItems none hg).2
  simpa using h2

/-- C2: with a tolerant window (endDate - 7 strictly after startDate + 7)
get_cached_stock_codes returns exactly the codes whose minimum stored
date is ≤ startDate + 7 and whose maximum stored date is ≥ endDate - 7;
with a degenerate window (endDate - 7 ≤ startDate + 7) it returns exactly
the codes whose minimum stored date is ≤ startDate and whose maximum
stored date is ≥ endDate. -/
theorem get_cached_stock_codes_spec (s : List DailyRow)
    (startDate endDate : ℤ) (c : String) :
    (startDate + 7 < endDate - 7 →
      (c ∈ getCachedStockCodes s startDate endDate ↔
        (∃ d ∈ codeDates s c, d ≤ startDate + 7) ∧
        (∃ d ∈ codeDates s c, endDate - 7 ≤ d))) ∧
    (endDate - 7 ≤ startDate + 7 →
      (c ∈ getCachedStockCodes s startDate endDate ↔
        (∃ d ∈ codeDates s c, d ≤ startDate) ∧
        (∃ d ∈ codeDates s c, endDate ≤ d))) := by
  constructor
  · intro h
    have hif : ¬ (endDate - 7 ≤ startDate + 7) := by omega
    have heq : getCachedStockCodes s startDate endDate =
        (dedupFirst (s.map (fun r => r.code))).filter (fun c0 =>
          match codeDates s c0 with
          | [] => false
          | d :: ds => decide (ds.foldl min d ≤ startDate + 7)
              && decide (endDate - 7 ≤ ds.foldl max d)) := by
      simp only [getCachedStockCodes, if_neg hif]
    rw [heq]
    exact mem_cached_filter s (startDate + 7) (endDate - 7) c
  · intro h
    have heq : getCachedStockCodes s startDate endDate =
        (dedupFirst (s.map (fun r => r.code))).filter (fun c0 =>
          match codeDates s c0 with
          | [] => false
          | d :: ds => decide (ds.foldl min d ≤ startDate)
              && decide (endDate ≤ ds.foldl max d)) := by
      simp only [getCachedStockCodes, if_pos h]
    rw [heq]
    exact mem_cached_filter s startDate endDate c

theorem get_cached_stock_codes_spec_witness :
    (95 : ℤ) + 7 < 135 - 7 ∧
      "000001" ∈ getCachedStockCodes demoStore 95 135 :=
  ⟨by decide,
    ((get_cached_stock_codes_spec demoStore 95 135 "000001").1 (by decide)).mpr
      (by decide)⟩

/-- C1: under the table's UNIQUE(날짜, 종목코드) key, get_prices includes
an instrument iff its in-range group has two rows with distinct dates and
a nonzero close on its earliest-dated row; every returned record's start
and end prices are the closes of a minimum-dated and a maximum-dated row
of its group, and its return is round((end - start) / start * 100, 2). -/
theorem get_prices_spec (store : List DailyRow) (s e : ℤ) (m : Option String)
    (hu : keysUnique store) :
    (∀ c : String,
      (∃ rec ∈ getPrices store s e m none, rec.code = c) ↔
        ((∃ r1 ∈ (rowsInRange store s e m).filter (fun r => r.code = c),
            ∃ r2 ∈ (rowsInRange store s e m).filter (fun r => r.code = c),
              r1.date ≠ r2.date) ∧
         (∃ rm ∈ (rowsInRange store s e m).filter (fun r => r.code = c),
            (∀ r ∈ (rowsInRange store s e m).filter (fun r => r.code = c),
              rm.date ≤ r.date) ∧ rm.close ≠ 0))) ∧
    (∀ rec ∈ getPrices store s e m none,
      ∃ rs ∈ (rowsInRange store s e m).filter (fun r => r.code = rec.code),
        ∃ re ∈ (rowsInRange store s e m).filter (fun r => r.code = rec.code),
          (∀ r ∈ (rowsInRange store s e m).filter (fun r => r.code = rec.code),
            rs.date ≤ r.date) ∧
          (∀ r ∈ (rowsInRange store s e m).filter (fun r => r.code = rec.code),
            r.date ≤ re.date) ∧
          rec.startPrice = rs.close ∧ rec.endPrice = re.close ∧
          rec.ret = round2 (((rec.endPrice : ℚ) - (rec.startPrice : ℚ))
            / (rec.startPrice : ℚ) * 100)) := by
  constructor
  · intro c
    constructor
    · rintro ⟨rec, hrec_mem, hrec_code⟩
      rcases mem_getPrices_none.mp hrec_mem with ⟨c0, _, hpc⟩
      have hc0 : rec.code = c0 := (processCode_some_spec hpc).1
      have hc0c : c0 = c := by rw [← hc0, hrec_code]
      rw [hc0c] at hpc
      exact (processCode_isSome_iff (pairwise_dates hu s e m c)).mp ⟨rec, hpc⟩
    · intro hrhs
      rcases (processCode_isSome_iff (pairwise_dates hu s e m c)).mpr hrhs with
        ⟨rec, hpc⟩
      rcases hrhs.1 with ⟨r1, hr1, _⟩
      have hr1f := List.mem_filter.mp hr1
      have hcdedup : c ∈ dedupFirst ((rowsInRange store s e m).map
          (fun r => r.code)) :=
        mem_dedupFirst.mpr (List.mem_map.mpr ⟨r1, hr1f.1, by simpa using hr1f.2⟩)
      exact ⟨rec, mem_getPrices_none.mpr ⟨c, hcdedup, hpc⟩,
        (processCode_some_spec hpc).1⟩
  · intro rec hrec
    rcases mem_getPrices_none.mp hrec with ⟨c0, _, hpc⟩
    have hc0 : rec.code = c0 := (processCode_some_spec hpc).1
    rw [hc0]
    rcases processCode_some_spec hpc with
      ⟨_, _, rs, hrs, re, hre, hmin, hmax, hsp, hep, _, hret⟩
    exact ⟨rs, hrs, re, hre, hmin, hmax, hsp, hep, hret⟩

theorem get_prices_spec_witness :
    keysUnique demoStore ∧
      ∃ rec ∈ getPrices demoStore 90 140 none none, rec.code = "000001" :=
  ⟨by unfold keysUnique; decide,
    ((get_prices_spec demoStore 90 140 none (by unfold keysUnique; decide)).1
      "000001").mpr (by decide)⟩

/-- C7: get_prices output is always sorted descending by 수익률(%), and a
supplied top_n only ever truncates: the result is a prefix (a take) of the
untruncated sorted list. -/
theorem get_prices_sorted_trunc (store : List DailyRow) (s e : ℤ)
    (m : Option String) :
    (∀ topN : Option ℕ, List.Sorted retGe (getPrices store s e m topN)) ∧
    (∀ n : ℕ, ∃ k : ℕ,
      getPrices store s e m (some n) = (getPrices store s e m none).take k) := by
  have hbase : List.Sorted retGe (getPrices store s e m none) := by
    show List.Sorted retGe (List.insertionSort retGe _)
    exact List.sorted_insertionSort retGe _
  have heq_zero : ∀ n : ℕ, n = 0 →
      getPrices store s e m (some n) = getPrices store s e m none := by
    intro n hn
    show (if n ≠ 0 then _ else _) = _
    rw [if_neg (by simp [hn])]
    rfl
  have heq_pos : ∀ n : ℕ, n ≠ 0 →
      getPrices store s e m (some n) = (getPrices store s e m none).take n := by
    intro n hn
    show (if n ≠ 0 then _ else _) = _
    rw [if_pos hn]
    rfl
  refine ⟨?_, ?_⟩
  · intro topN
    cases topN with
    | none => exact hbase
    | some n =>
      by_cases hn : n = 0
      · rw [heq_zero n hn]; exact hbase
      · rw [heq_pos n hn]
        exact List.Pairwise.sublist (List.take_sublist n _) hbase
  · intro n
    by_cases hn : n = 0
    · refine ⟨(getPrices store s e m none).length, ?_⟩
      rw [heq_zero n hn, List.take_length]
    · exact ⟨n, heq_pos n hn⟩

/-- C4: with at least 51 previous rows, find_reentry_stocks returns
exactly the instruments appearing at positions 51..100 of the previous
snapshot and anywhere in the current snapshot; each result row carries a
previous-band position as previousRank and a current position as
currentRank, and the result is sorted ascending by currentRank.  With
fewer than 51 previous rows the result is empty. -/
theorem find_reentry_stocks_spec (prevDf currDf : List SnapRow) :
    (prevDf.length < 51 → findReentryStocks prevDf currDf = []) ∧
    (51 ≤ prevDf.length →
      ((∀ c : String,
        (∃ r ∈ findReentryStocks prevDf currDf, r.code = c) ↔
          ((∃ p ∈ ranked 1 prevDf, 51 ≤ p.1 ∧ p.1 ≤ 100 ∧ p.2.code = c) ∧
           (∃ q ∈ ranked 1 currDf, q.2.code = c))) ∧
      (∀ r ∈ findReentryStocks prevDf currDf,
        (∃ p ∈ ranked 1 prevDf, 51 ≤ p.1 ∧ p.1 ≤ 100 ∧ p.1 = r.prevRank ∧
            p.2.code = r.code) ∧
        (∃ q ∈ ranked 1 currDf, q.1 = r.currRank ∧ q.2.code = r.code)) ∧
      List.Sorted currRankLe (findReentryStocks prevDf currDf))) := by
  constructor
  · intro h
    have h0 : prevDf.length < REENTRY_LOWER := h
    unfold findReentryStocks
    rw [if_pos h0]
  · intro h51
    have hnot : ¬ (prevDf.length < REENTRY_LOWER) := by
      simp only [REENTRY_LOWER]; omega
    have hwork : findReentryStocks prevDf currDf =
        List.insertionSort currRankLe
          ((dedupFirst (((ranked 51 ((prevDf.drop 50).take 50)).map
              (fun p => p.2.code)).filter
            (fun c => ((ranked 1 currDf).find?
              (fun q => q.2.code = c)).isSome))).filterMap
            (reentryBuild (ranked 51 ((prevDf.drop 50).take 50))
              (ranked 1 currDf))) := by
      unfold findReentryStocks
      rw [if_neg hnot]
      rfl
    have hforward : ∀ r ∈ findReentryStocks prevDf currDf,
        ∃ p q, (ranked 51 ((prevDf.drop 50).take 50)).find?
            (fun p0 => p0.2.code = r.code) = some p ∧
          (ranked 1 currDf).find? (fun q0 => q0.2.code = r.code) = some q ∧
          p.1 = r.prevRank ∧ q.1 = r.currRank := by
      intro r hr
      rw [hwork, List.mem_insertionSort] at hr
      rcases List.mem_filterMap.mp hr with ⟨c0, _, hb⟩
      rcases reentryBuild_eq_some hb with ⟨p, q, hfp, hfq, hreq⟩
      have hcode : r.code = c0 := by rw [hreq]
      rw [hcode]
      exact ⟨p, q, hfp, hfq, by rw [hreq], by rw [hreq]⟩
    refine ⟨?_, ?_, ?_⟩
    · intro c
      constructor
      · rintro ⟨r, hr, hrc⟩
        rcases hforward r hr with ⟨p, q, hfp, hfq, _, _⟩
        rw [hrc] at hfp hfq
        have hpB := List.mem_of_find?_eq_some hfp
        have hpc : p.2.code = c := by simpa using List.find?_some hfp
        have hband := (mem_ranked_band prevDf h51 p).mp hpB
        have hqC := List.mem_of_find?_eq_some hfq
        have hqc : q.2.code = c := by simpa using List.find?_some hfq
        exact ⟨⟨p, hband.1, hband.2.1, hband.2.2, hpc⟩, ⟨q, hqC, hqc⟩⟩
      · rintro ⟨⟨p, hpmem, hplo, hphi, hpc⟩, ⟨q, hqmem, hqc⟩⟩
        have hpB : p ∈ ranked 51 ((prevDf.drop 50).take 50) :=
          (mem_ranked_band prevDf h51 p).mpr ⟨hpmem, hplo, hphi⟩
        have hqS : ((ranked 1 currDf).find?
            (fun q0 => q0.2.code = c)).isSome = true :=
          List.find?_isSome.mpr ⟨q, hqmem, by simp [hqc]⟩
        have hpS : ((ranked 51 ((prevDf.drop 50).take 50)).find?
            (fun p0 => p0.2.code = c)).isSome = true :=
          List.find?_isSome.mpr ⟨p, hpB, by simp [hpc]⟩
        obtain ⟨p1, hfp⟩ := Option.isSome_iff_exists.mp hpS
        obtain ⟨q1, hfq⟩ := Option.isSome_iff_exists.mp hqS
        have hcdedup : c ∈ dedupFirst (((ranked 51 ((prevDf.drop 50).take 50)).map
            (fun p0 => p0.2.code)).filter
          (fun c0 => ((ranked 1 currDf).find?
            (fun q0 => q0.2.code = c0)).isSome)) :=
          mem_dedupFirst.mpr (List.mem_filter.mpr
            ⟨List.mem_map.mpr ⟨p, hpB, hpc⟩, hqS⟩)
        refine ⟨⟨c, q1.2.name, p1.1, p1.2.ret, q1.1, q1.2.ret,
          q1.2.roe, q1.2.opMargin⟩, ?_, rfl⟩
        rw [hwork, List.mem_insertionSort]
        refine List.mem_filterMap.mpr ⟨c, hcdedup, ?_⟩
        unfold reentryBuild
        rw [hfp, hfq]
    · intro r hr
      rcases hforward r hr with ⟨p, q, hfp, hfq, hpr, hqr⟩
      have hpB := List.mem_of_find?_eq_some hfp
      have hpc : p.2.code = r.code := by simpa using List.find?_some hfp
      have hband := (mem_ranked_band prevDf h51 p).mp hpB
      have hqC := List.mem_of_find?_eq_some hfq
      have hqc : q.2.code = r.code := by simpa using List.find?_some hfq
      exact ⟨⟨p, hband.1, hband.2.1, hband.2.2, hpr, hpc⟩, ⟨q, hqC, hqr, hqc⟩⟩
    · rw [hwork]
      exact List.sorted_insertionSort currRankLe _

theorem find_reentry_stocks_spec_witness :
    51 ≤ demoPrev.length ∧
    List.Sorted currRankLe (findReentryStocks demoPrev demoCurr) ∧
    findReentryStocks [] demoCurr = [] := by
  have h51 : 51 ≤ demoPrev.length := by decide
  exact ⟨h51,
    ((find_reentry_stocks_spec demoPrev demoCurr).2 h51).2.2,
    (find_reentry_stocks_spec [] demoCurr).1 (by decide)⟩

/-- C6: calling save_daily_prices a second time with the same records
leaves the daily-price store in the same state as after the first call;
in particular get_cached_stock_codes is unchanged for every date range. -/
theorem save_daily_prices_idempotent (s records : List DailyRow) :
    saveDailyPrices (saveDailyPrices s records) records = saveDailyPrices s records ∧
    ∀ startDate endDate : ℤ,
      getCachedStockCodes (saveDailyPrices (saveDailyPrices s records) records)
          startDate endDate
        = getCachedStockCodes (saveDailyPrices s records) startDate endDate := by
  refine ⟨saveDailyPrices_replay s records, fun startDate endDate => ?_⟩
  rw [saveDailyPrices_replay s records]

/-- C8: _is_token_valid returns true iff a token and an expiry timestamp
are both stored and the current time is strictly before the stored expiry
minus 1 minute; hence a cached credential is never considered valid at or
after expiresAt - 1 minute. -/
theorem is_token_valid_iff (st : TokenState) (now : ℤ) :
    (isTokenValid st now = true ↔
      st.accessToken.isSome ∧
        ∃ expiry, st.tokenExpiredAt = some expiry ∧ now < expiry - 60) ∧
    (∀ expiry, st.tokenExpiredAt = some expiry → expiry - 60 ≤ now →
      isTokenValid st now = false) := by
  constructor
  · unfold isTokenValid
    cases ht : st.accessToken <;> cases he : st.tokenExpiredAt <;> simp
  · intro expiry hexp hle
    unfold isTokenValid
    rw [hexp]
    cases st.accessToken <;> simp
    omega

theorem is_token_valid_iff_witness :
    (⟨some "tok", some 1000⟩ : TokenState).tokenExpiredAt = some 1000 ∧
      (1000 : ℤ) - 60 ≤ 940 ∧
      isTokenValid ⟨some "tok", some 1000⟩ 940 = false :=
  ⟨rfl, by decide,
    (is_token_valid_iff ⟨some "tok", some 1000⟩ 940).2 1000 rfl (by decide)⟩

/-- C10: add_watchlist returns true iff no entry with the same
(user_id, platform, 종목코드) key existed, in which case exactly that one
entry (with today as 등록일) is appended; when it returns false the
watchlist is unchanged, so a pre-existing entry keeps its stored name and
등록일. -/
theorem add_watchlist_spec (wl : List WatchEntry) (userId : ℤ)
    (stockCode stockName platform today : String) :
    ((addWatchlist wl userId stockCode stockName platform today).1 = true ↔
      ¬ ∃ e0 ∈ wl, e0.userId = userId ∧ e0.platform = platform ∧
        e0.code = stockCode) ∧
    ((addWatchlist wl userId stockCode stockName platform today).1 = true →
      (addWatchlist wl userId stockCode stockName platform today).2 =
        wl ++ [{ userId := userId, platform := platform, code := stockCode,
                 name := stockName, addedDate := today }]) ∧
    ((addWatchlist wl userId stockCode stockName platform today).1 = false →
      (addWatchlist wl userId stockCode stockName platform today).2 = wl) := by
  unfold addWatchlist
  by_cases h : (wl.any fun e0 => e0.userId = userId && e0.platform = platform
      && e0.code = stockCode) = true
  · rw [if_pos h]
    simp only [List.any_eq_true, Bool.and_eq_true, decide_eq_true_eq] at h
    refine ⟨?_, ?_, ?_⟩
    · constructor
      · intro hfalse; simp at hfalse
      · intro hno
        exfalso
        rcases h with ⟨e0, he0, ⟨h1, h2⟩, h3⟩
        exact hno ⟨e0, he0, h1, h2, h3⟩
    · intro hfalse; simp at hfalse
    · intro _; rfl
  · rw [if_neg h]
    refine ⟨?_, ?_, ?_⟩
    · constructor
      · intro _ hc
        rcases hc with ⟨e0, he0, h1, h2, h3⟩
        exact h (List.any_eq_true.mpr ⟨e0, he0, by simp [h1, h2, h3]⟩)
      · intro _; rfl
    · intro _; rfl
    · intro hfalse; simp at hfalse

theorem add_watchlist_spec_witness :
    (addWatchlist [] 7 "005930" "삼성전자" "discord" "2026-10-12").1 = true ∧
      (addWatchlist [] 7 "005930" "삼성전자" "discord" "2026-10-12").2 =
        [{ userId := 7, platform := "discord", code := "005930",
           name := "삼성전자", addedDate := "2026-10-12" }] :=
  ⟨by decide,
    (add_watchlist_spec [] 7 "005930" "삼성전자" "discord" "2026-10-12").2.1 (by decide)⟩

end StockScanner
